import Mathlib

/-!
Shallow embedding of `neurodsp/spectral/utils.py` (trim_spectrum,
trim_spectrogram, get_positive_fft_outputs, pad_signal) and proofs of the
specification's claims about those functions.

Arrays are modelled as `List ℚ` (exact rationals standing for the real-valued
samples; only order comparisons and structural operations matter here), 2-d
arrays as `List (List ℚ)` in row-major order, matching numpy's `[axis0][axis1]`
indexing. Boolean masking (`arr[mask]`) is `maskSelect`, numpy slicing
(`arr[s:e]`) is `pySlice`.
-/

namespace NeuroDSP

/-- The elementwise predicate of `np.logical_and(freqs >= f_range[0], freqs <= f_range[1])`. -/
def inRange (lo hi c : ℚ) : Bool :=
  decide (lo ≤ c) && decide (c ≤ hi)

/-- `np.logical_and(C >= lo, C <= hi)`: the boolean mask over a coordinate array. -/
def rangeMask (lo hi : ℚ) (C : List ℚ) : List Bool :=
  C.map (inRange lo hi)

/-- numpy boolean-mask indexing `xs[mask]`: keep the entries of `xs` at the
positions where `mask` is `true`, in order. -/
def maskSelect {β : Type} (mask : List Bool) (xs : List β) : List β :=
  ((mask.zip xs).filter (fun p => p.1)).map (fun p => p.2)

/-- `trim_spectrum(freqs, power_spectra, f_range)`, 1-d `power_spectra` branch:
mask the frequencies, return `(freqs[f_mask], power_spectra[f_mask])`. -/
def trim_spectrum (freqs power_spectra : List ℚ) (f_range : ℚ × ℚ) :
    List ℚ × List ℚ :=
  let f_mask := rangeMask f_range.1 f_range.2 freqs
  (maskSelect f_mask freqs, maskSelect f_mask power_spectra)

/-- `trim_spectrum`, 2-d `power_spectra` branch (shape `[n_spectra, n_freqs]`):
return `(freqs[f_mask], power_spectra[:, f_mask])`, the mask applied to the
last axis, i.e. to every row. -/
def trim_spectrum2d (freqs : List ℚ) (power_spectra : List (List ℚ))
    (f_range : ℚ × ℚ) : List ℚ × List (List ℚ) :=
  let f_mask := rangeMask f_range.1 f_range.2 freqs
  (maskSelect f_mask freqs, power_spectra.map (maskSelect f_mask))

/-- `trim_spectrogram(freqs, times, spg, f_range, t_range)`: `spg` has shape
`[n_freqs, n_time_windows]`; `f_range`, when given, masks axis 0 (the rows)
and `freqs`; `t_range`, when given, masks axis 1 (within every row) and
`times`; an absent range leaves its axis untouched. -/
def trim_spectrogram (freqs times : List ℚ) (spg : List (List ℚ))
    (f_range t_range : Option (ℚ × ℚ)) : List ℚ × List ℚ × List (List ℚ) :=
  let p1 : List ℚ × List (List ℚ) :=
    match f_range with
    | some fr =>
      let f_mask := rangeMask fr.1 fr.2 freqs
      (maskSelect f_mask freqs, maskSelect f_mask spg)
    | none => (freqs, spg)
  let p2 : List ℚ × List (List ℚ) :=
    match t_range with
    | some tr =>
      let t_mask := rangeMask tr.1 tr.2 times
      (maskSelect t_mask times, p1.2.map (maskSelect t_mask))
    | none => (times, p1.2)
  (p1.1, p2.1, p2.2)

/-- Python slicing `xs[s:e]` for `0 ≤ s ≤ e` (clamped at the ends, never an
error). -/
def pySlice {β : Type} (xs : List β) (s e : Nat) : List β :=
  (xs.take e).drop s

/-- `get_positive_fft_outputs(freqs, powers, drop_zero)`:
`start_ind = 1 if drop_zero else 0`, `end_ind = ceil(len(freqs) / 2)`
(`(N + 1) / 2` in exact natural arithmetic); returns
`freqs[start_ind:end_ind]` paired with the identically sliced `powers` when
`powers` is passed, and just the sliced `freqs` (second component `none`)
otherwise. -/
def get_positive_fft_outputs (freqs : List ℚ) (powers : Option (List ℚ))
    (drop_zero : Bool) : List ℚ × Option (List ℚ) :=
  let start_ind := if drop_zero then 1 else 0
  let end_ind := (freqs.length + 1) / 2
  match powers with
  | some p => (pySlice freqs start_ind end_ind, some (pySlice p start_ind end_ind))
  | none => (pySlice freqs start_ind end_ind, none)

/-- `pad_signal(sig, length, fast_len)`. The external `scipy.fft.next_fast_len`
collaborator is a parameter `next_fast_len : Nat → Nat`; the spec's contract
for it (`next_fast_len n ≥ n`, deterministic) is a hypothesis of the theorems
that need it. When `length > len(sig)`: `fast_len` first replaces `length` by
`next_fast_len length`, then `npad_total = length - len(sig)` zeros are split
`floor(npad_total / 2)` on the left and `ceil(npad_total / 2)` on the right
(`npad_total - npad_total / 2` in natural arithmetic). Otherwise `sig` is
returned unchanged. -/
def pad_signal (next_fast_len : Nat → Nat) (sig : List ℚ) (length : Nat)
    (fast_len : Bool) : List ℚ :=
  if sig.length < length then
    let length2 := if fast_len then next_fast_len length else length
    let npad_total := length2 - sig.length
    let npad_left := npad_total / 2
    let npad_right := npad_total - npad_left
    List.replicate npad_left 0 ++ sig ++ List.replicate npad_right 0
  else sig

/-! ### Helper lemmas about boolean-mask selection -/

theorem maskSelect_nil {β : Type} (m : List Bool) : maskSelect m ([] : List β) = [] := by
  cases m <;> rfl

theorem maskSelect_cons {β : Type} (b : Bool) (m : List Bool) (x : β) (xs : List β) :
    maskSelect (b :: m) (x :: xs) =
      if b then x :: maskSelect m xs else maskSelect m xs := by
  cases b <;> simp [maskSelect]

/-- Masking a list by a pointwise predicate over itself is filtering. -/
theorem maskSelect_map_self {α : Type} (f : α → Bool) (C : List α) :
    maskSelect (C.map f) C = C.filter f := by
  induction C with
  | nil => rfl
  | cons c C ih =>
    rw [List.map_cons, maskSelect_cons, List.filter_cons]
    cases h : f c <;> simp [ih, h]

/-- Masking `xs` by a predicate computed over a coordinate list `C` keeps the
entries of `xs` zipped with an in-predicate coordinate. -/
theorem maskSelect_map_mask {α β : Type} (f : α → Bool) (C : List α) (xs : List β) :
    maskSelect (C.map f) xs =
      ((C.zip xs).filter (fun p => f p.1)).map (fun p => p.2) := by
  induction C generalizing xs with
  | nil => rfl
  | cons c C ih =>
    cases xs with
    | nil => rfl
    | cons x xs =>
      rw [List.map_cons, maskSelect_cons, List.zip_cons_cons, List.filter_cons]
      cases h : f c <;> simp [ih, h]

/-- Mask selection commutes with mapping a function over the data list. -/
theorem maskSelect_map {β γ : Type} (m : List Bool) (g : β → γ) (xs : List β) :
    maskSelect m (xs.map g) = (maskSelect m xs).map g := by
  induction m generalizing xs with
  | nil => rfl
  | cons b m ih =>
    cases xs with
    | nil => rfl
    | cons x xs =>
      rw [List.map_cons, maskSelect_cons, maskSelect_cons]
      cases b <;> simp [ih]

theorem maskSelect_sublist {β : Type} (m : List Bool) (xs : List β) :
    (maskSelect m xs).Sublist xs := by
  induction m generalizing xs with
  | nil => simp [maskSelect]
  | cons b m ih =>
    cases xs with
    | nil => simp [maskSelect]
    | cons x xs =>
      rw [maskSelect_cons]
      cases b with
      | false => rw [if_neg (by simp)]; exact (ih xs).cons x
      | true => rw [if_pos rfl]; exact (ih xs).cons₂ x

theorem maskSelect_length_le_count {β : Type} (m : List Bool) (xs : List β) :
    (maskSelect m xs).length ≤ m.count true := by
  induction m generalizing xs with
  | nil => simp [maskSelect]
  | cons b m ih =>
    cases xs with
    | nil => simp [maskSelect_nil]
    | cons x xs =>
      rw [maskSelect_cons]
      rcases b with _ | _ <;> simp [List.count_cons] <;>
        exact Nat.le_trans (ih xs) (by omega)

theorem maskSelect_length_eq_count {β : Type} (m : List Bool) (xs : List β)
    (h : m.length ≤ xs.length) : (maskSelect m xs).length = m.count true := by
  induction m generalizing xs with
  | nil => simp [maskSelect]
  | cons b m ih =>
    cases xs with
    | nil => simp at h
    | cons x xs =>
      rw [maskSelect_cons]
      have h' : m.length ≤ xs.length := by simpa using h
      rcases b with _ | _ <;> simp [List.count_cons, ih xs h']

theorem maskSelect_replicate_true {β : Type} (k : Nat) (xs : List β)
    (h : xs.length ≤ k) : maskSelect (List.replicate k true) xs = xs := by
  induction xs generalizing k with
  | nil => exact maskSelect_nil _
  | cons x xs ih =>
    cases k with
    | zero => simp at h
    | succ k =>
      rw [List.replicate_succ, maskSelect_cons, if_pos rfl,
        ih k (by simpa using h)]

theorem map_eq_replicate_true {α : Type} (f : α → Bool) (C : List α)
    (h : ∀ c ∈ C, f c = true) : C.map f = List.replicate C.length true := by
  induction C with
  | nil => rfl
  | cons c C ih =>
    rw [List.map_cons, List.length_cons, List.replicate_succ, h c (by simp),
      ih (fun d hd => h d (by simp [hd]))]

theorem count_true_map {α : Type} (f : α → Bool) (C : List α) :
    (C.map f).count true = (C.filter f).length := by
  induction C with
  | nil => rfl
  | cons c C ih =>
    rw [List.map_cons, List.count_cons, List.filter_cons]
    cases h : f c <;> simp [ih, h]

/-- Re-masking anything already no longer than the filtered coordinate list,
with the mask the filtered coordinates generate, keeps everything. -/
theorem maskSelect_filter_mask {α β : Type} (f : α → Bool) (C : List α)
    (xs : List β) (h : xs.length ≤ (C.filter f).length) :
    maskSelect ((C.filter f).map f) xs = xs := by
  rw [map_eq_replicate_true f _ (fun c hc => (List.mem_filter.mp hc).2)]
  exact maskSelect_replicate_true _ _ (by simpa using h)

theorem maskSelect_map_length_le {α β : Type} (f : α → Bool) (C : List α)
    (xs : List β) : (maskSelect (C.map f) xs).length ≤ (C.filter f).length := by
  rw [← count_true_map]
  exact maskSelect_length_le_count _ _

/-- A mask that is pointwise false selects nothing. -/
theorem maskSelect_map_false {α β : Type} (f : α → Bool) (C : List α)
    (xs : List β) (h : ∀ c ∈ C, f c = false) : maskSelect (C.map f) xs = [] := by
  induction C generalizing xs with
  | nil => rfl
  | cons c C ih =>
    cases xs with
    | nil => rfl
    | cons x xs =>
      rw [List.map_cons, maskSelect_cons, if_neg (by simp [h c (by simp)])]
      exact ih xs (fun d hd => h d (by simp [hd]))

theorem inRange_iff (lo hi c : ℚ) : inRange lo hi c = true ↔ lo ≤ c ∧ c ≤ hi := by
  simp [inRange]

/-! ### Unfolding equations (all definitional) -/

theorem rangeMask_def (lo hi : ℚ) (C : List ℚ) :
    rangeMask lo hi C = C.map (inRange lo hi) := rfl

theorem trim_spectrum_def (freqs pow : List ℚ) (r : ℚ × ℚ) :
    trim_spectrum freqs pow r
      = (maskSelect (rangeMask r.1 r.2 freqs) freqs,
         maskSelect (rangeMask r.1 r.2 freqs) pow) := rfl

theorem trim_spectrum2d_def (freqs : List ℚ) (pows2 : List (List ℚ)) (r : ℚ × ℚ) :
    trim_spectrum2d freqs pows2 r
      = (maskSelect (rangeMask r.1 r.2 freqs) freqs,
         pows2.map (maskSelect (rangeMask r.1 r.2 freqs))) := rfl

theorem trim_spectrogram_some_some (freqs times : List ℚ) (spg : List (List ℚ))
    (fr tr : ℚ × ℚ) :
    trim_spectrogram freqs times spg (some fr) (some tr)
      = (maskSelect (rangeMask fr.1 fr.2 freqs) freqs,
         maskSelect (rangeMask tr.1 tr.2 times) times,
         (maskSelect (rangeMask fr.1 fr.2 freqs) spg).map
           (maskSelect (rangeMask tr.1 tr.2 times))) := rfl

theorem trim_spectrogram_some_none (freqs times : List ℚ) (spg : List (List ℚ))
    (fr : ℚ × ℚ) :
    trim_spectrogram freqs times spg (some fr) none
      = (maskSelect (rangeMask fr.1 fr.2 freqs) freqs, times,
         maskSelect (rangeMask fr.1 fr.2 freqs) spg) := rfl

theorem trim_spectrogram_none_some (freqs times : List ℚ) (spg : List (List ℚ))
    (tr : ℚ × ℚ) :
    trim_spectrogram freqs times spg none (some tr)
      = (freqs, maskSelect (rangeMask tr.1 tr.2 times) times,
         spg.map (maskSelect (rangeMask tr.1 tr.2 times))) := rfl

theorem trim_spectrogram_none_none (freqs times : List ℚ) (spg : List (List ℚ)) :
    trim_spectrogram freqs times spg none none = (freqs, times, spg) := rfl

/-- Re-masking a time-masked row collection with the mask the trimmed time
axis generates leaves it unchanged. -/
theorem map_retrim {α β : Type} (f : α → Bool) (C : List α)
    (rows : List (List β)) :
    (rows.map (maskSelect (C.map f))).map (maskSelect ((C.filter f).map f))
      = rows.map (maskSelect (C.map f)) := by
  rw [List.map_map]
  exact List.map_congr_left fun r _ =>
    maskSelect_filter_mask _ _ _ (maskSelect_map_length_le _ _ _)

/-! ### The claims -/

/-- Claim C1: trimming selects exactly the coordinates `c` with
`lo ≤ c ≤ hi`, both comparisons inclusive: the trimmed coordinate arrays of
`trim_spectrum` and of `trim_spectrogram` (frequency axis and time axis alike)
equal the inclusive-range filter of the input coordinate array; every element
of the trimmed output satisfies the predicate, every input element satisfying
the predicate appears in the output, and the kept elements are a sublist of
the input (original relative order preserved). -/
theorem trim_selects_inclusive_range (lo hi : ℚ) (freqs times pow : List ℚ)
    (spg : List (List ℚ)) (fro tro : Option (ℚ × ℚ)) :
    (trim_spectrum freqs pow (lo, hi)).1 = freqs.filter (inRange lo hi)
    ∧ (trim_spectrogram freqs times spg (some (lo, hi)) tro).1
        = freqs.filter (inRange lo hi)
    ∧ (trim_spectrogram freqs times spg fro (some (lo, hi))).2.1
        = times.filter (inRange lo hi)
    ∧ (∀ e ∈ (trim_spectrum freqs pow (lo, hi)).1, lo ≤ e ∧ e ≤ hi)
    ∧ (∀ e ∈ freqs, lo ≤ e → e ≤ hi → e ∈ (trim_spectrum freqs pow (lo, hi)).1)
    ∧ (trim_spectrum freqs pow (lo, hi)).1.Sublist freqs := by
  have h1 : (trim_spectrum freqs pow (lo, hi)).1 = freqs.filter (inRange lo hi) :=
    maskSelect_map_self _ _
  refine ⟨h1, ?_, ?_, ?_, ?_, ?_⟩
  · cases tro <;> simp [trim_spectrogram, rangeMask, maskSelect_map_self]
  · cases fro <;> simp [trim_spectrogram, rangeMask, maskSelect_map_self]
  · intro e he
    rw [h1] at he
    exact (inRange_iff lo hi e).mp (List.mem_filter.mp he).2
  · intro e he hlo hhi
    rw [h1]
    exact List.mem_filter.mpr ⟨he, (inRange_iff lo hi e).mpr ⟨hlo, hhi⟩⟩
  · rw [h1]
    exact List.filter_sublist _

/-- Claim C2: `trim_spectrum` returns the masked frequencies paired with the
identically masked powers — for 1-d powers the kept power values are exactly
those zipped with an in-range frequency; for 2-d powers (shape
`[n_spectra, n_freqs]`, frequency axis last) every row is masked the same
way — so the trimmed power array matches the trimmed frequency array in
length along the frequency axis; the spec's concrete example holds. -/
theorem trim_spectrum_shapes (lo hi : ℚ) (freqs pow : List ℚ)
    (pows2 : List (List ℚ)) (hpow : pow.length = freqs.length)
    (hrows : ∀ row ∈ pows2, row.length = freqs.length) :
    (trim_spectrum freqs pow (lo, hi)).2
        = ((freqs.zip pow).filter (fun p => inRange lo hi p.1)).map (fun p => p.2)
    ∧ (trim_spectrum freqs pow (lo, hi)).2.length
        = (trim_spectrum freqs pow (lo, hi)).1.length
    ∧ (trim_spectrum2d freqs pows2 (lo, hi)).1 = (trim_spectrum freqs pow (lo, hi)).1
    ∧ (∀ row ∈ (trim_spectrum2d freqs pows2 (lo, hi)).2,
        row.length = (trim_spectrum2d freqs pows2 (lo, hi)).1.length)
    ∧ trim_spectrum [5, 6, 7, 8, 9] [1, 2, 3, 4, 5] (6, 8) = ([6, 7, 8], [2, 3, 4]) := by
  have hm : (rangeMask lo hi freqs).length = freqs.length := by simp [rangeMask]
  refine ⟨maskSelect_map_mask _ _ _, ?_, rfl, ?_, by decide⟩
  · show (maskSelect (rangeMask lo hi freqs) pow).length
      = (maskSelect (rangeMask lo hi freqs) freqs).length
    rw [maskSelect_length_eq_count _ _ (by rw [hm, hpow]),
      maskSelect_length_eq_count _ _ (le_of_eq hm)]
  · intro row hrow
    simp only [trim_spectrum2d] at hrow
    obtain ⟨r0, hr0, rfl⟩ := List.mem_map.mp hrow
    show (maskSelect (rangeMask lo hi freqs) r0).length
      = (maskSelect (rangeMask lo hi freqs) freqs).length
    rw [maskSelect_length_eq_count _ _ (by rw [hm, hrows r0 hr0]),
      maskSelect_length_eq_count _ _ (le_of_eq hm)]

/-- Witness for claim C2 at the spec's concrete example. -/
theorem trim_spectrum_shapes_witness :
    trim_spectrum [5, 6, 7, 8, 9] [1, 2, 3, 4, 5] (6, 8) = ([6, 7, 8], [2, 3, 4]) :=
  (trim_spectrum_shapes 6 8 [5, 6, 7, 8, 9] [1, 2, 3, 4, 5] [[1, 2, 3, 4, 5]]
    (by decide) (by decide)).2.2.2.2

/-- Claim C9: an empty selection is a valid output, never an error: when no
coordinate satisfies the range predicate (in particular for any bounds with
`lo > hi`, which no value can satisfy), `trim_spectrum` returns zero-length
arrays, the 2-d variant returns zero-length rows, and `trim_spectrogram`
returns zero-length coordinate and data arrays along the corresponding
axis. -/
theorem trim_empty_selection (lo hi : ℚ) (freqs pow times : List ℚ)
    (pows2 spg : List (List ℚ)) (h : ∀ c ∈ freqs, ¬ (lo ≤ c ∧ c ≤ hi)) :
    trim_spectrum freqs pow (lo, hi) = ([], [])
    ∧ trim_spectrum2d freqs pows2 (lo, hi) = ([], pows2.map (fun _ => []))
    ∧ (trim_spectrogram freqs times spg (some (lo, hi)) none).1 = []
    ∧ (trim_spectrogram freqs times spg (some (lo, hi)) none).2.2 = []
    ∧ (trim_spectrogram times freqs spg none (some (lo, hi))).2.1 = []
    ∧ (∀ row ∈ (trim_spectrogram times freqs spg none (some (lo, hi))).2.2,
        row = []) := by
  have hf : ∀ c ∈ freqs, inRange lo hi c = false := by
    intro c hc
    cases hb : inRange lo hi c with
    | false => rfl
    | true => exact absurd ((inRange_iff lo hi c).mp hb) (h c hc)
  refine ⟨?_, ?_, ?_, ?_, ?_, ?_⟩
  · show (maskSelect (freqs.map (inRange lo hi)) freqs,
      maskSelect (freqs.map (inRange lo hi)) pow) = ([], [])
    rw [maskSelect_map_false _ _ _ hf, maskSelect_map_false _ _ _ hf]
  · show (maskSelect (freqs.map (inRange lo hi)) freqs,
      pows2.map (maskSelect (freqs.map (inRange lo hi)))) = ([], pows2.map (fun _ => []))
    rw [maskSelect_map_false _ _ _ hf]
    exact congrArg _ (List.map_congr_left fun r _ => maskSelect_map_false _ _ _ hf)
  · exact maskSelect_map_false _ _ _ hf
  · exact maskSelect_map_false _ _ _ hf
  · exact maskSelect_map_false _ _ _ hf
  · intro row hrow
    simp only [trim_spectrogram] at hrow
    obtain ⟨r0, _, rfl⟩ := List.mem_map.mp hrow
    exact maskSelect_map_false _ _ _ hf

/-- Witness for claim C9, with inverted bounds `lo = 3 > 2 = hi`. -/
theorem trim_empty_selection_witness :
    trim_spectrum [5, 6] [1, 2] (3, 2) = ([], []) :=
  (trim_empty_selection 3 2 [5, 6] [1, 2] [7] [[1], [2]] [[1, 2]] (by decide)).1

/-- Claim C3: `trim_spectrogram` trims the two axes independently and the
order of application does not matter: frequency trim followed by time trim,
time trim followed by frequency trim, and a single call with both ranges all
produce the same `(freqs_ext, times_ext, spg_ext)`; a range given as `None`
leaves that axis's coordinate array identical to the input and that axis of
`spg` untrimmed (row count preserved when `f_range` is absent, rows taken
whole from the input when `t_range` is absent), and two absent ranges are a
no-op. -/
theorem trim_spectrogram_axes_commute (freqs times : List ℚ) (spg : List (List ℚ))
    (fr tr : ℚ × ℚ) (fro tro : Option (ℚ × ℚ)) :
    trim_spectrogram (trim_spectrogram freqs times spg (some fr) none).1
        (trim_spectrogram freqs times spg (some fr) none).2.1
        (trim_spectrogram freqs times spg (some fr) none).2.2 none (some tr)
      = trim_spectrogram freqs times spg (some fr) (some tr)
    ∧ trim_spectrogram (trim_spectrogram freqs times spg none (some tr)).1
        (trim_spectrogram freqs times spg none (some tr)).2.1
        (trim_spectrogram freqs times spg none (some tr)).2.2 (some fr) none
      = trim_spectrogram freqs times spg (some fr) (some tr)
    ∧ (trim_spectrogram freqs times spg none tro).1 = freqs
    ∧ (trim_spectrogram freqs times spg fro none).2.1 = times
    ∧ (trim_spectrogram freqs times spg none tro).2.2.length = spg.length
    ∧ (∀ row ∈ (trim_spectrogram freqs times spg fro none).2.2, row ∈ spg)
    ∧ trim_spectrogram freqs times spg none none = (freqs, times, spg) := by
  refine ⟨rfl, ?_, ?_, ?_, ?_, ?_, rfl⟩
  · rw [trim_spectrogram_none_some, trim_spectrogram_some_some]
    show (maskSelect (rangeMask fr.1 fr.2 freqs) freqs,
        maskSelect (rangeMask tr.1 tr.2 times) times,
        maskSelect (rangeMask fr.1 fr.2 freqs)
          (spg.map (maskSelect (rangeMask tr.1 tr.2 times)))) = _
    rw [maskSelect_map]
  · cases tro <;> rfl
  · cases fro <;> rfl
  · cases tro with
    | none => rfl
    | some tr0 => exact List.length_map _ _
  · intro row hrow
    cases fro with
    | none => exact hrow
    | some fr0 =>
      rw [trim_spectrogram_some_none] at hrow
      exact (maskSelect_sublist _ _).subset hrow

/-- Claim C8: re-trimming with the same range(s) is idempotent: applying
`trim_spectrum` to its own outputs with the same `f_range` is a fixed point,
and likewise re-applying `trim_spectrogram` with the same `f_range` and
`t_range` (present or absent) to its own outputs. -/
theorem trim_idempotent (freqs pow : List ℚ) (r : ℚ × ℚ) (freqs2 times2 : List ℚ)
    (spg : List (List ℚ)) (fro tro : Option (ℚ × ℚ)) :
    trim_spectrum (trim_spectrum freqs pow r).1 (trim_spectrum freqs pow r).2 r
      = trim_spectrum freqs pow r
    ∧ trim_spectrogram (trim_spectrogram freqs2 times2 spg fro tro).1
        (trim_spectrogram freqs2 times2 spg fro tro).2.1
        (trim_spectrogram freqs2 times2 spg fro tro).2.2 fro tro
      = trim_spectrogram freqs2 times2 spg fro tro := by
  constructor
  · rw [trim_spectrum_def freqs pow r]
    dsimp only
    rw [trim_spectrum_def, rangeMask_def r.1 r.2 freqs,
      maskSelect_map_self (inRange r.1 r.2) freqs, rangeMask_def,
      maskSelect_filter_mask (inRange r.1 r.2) freqs
        (freqs.filter (inRange r.1 r.2)) (le_refl _),
      maskSelect_filter_mask (inRange r.1 r.2) freqs
        (maskSelect (freqs.map (inRange r.1 r.2)) pow)
        (maskSelect_map_length_le _ _ _)]
  · cases fro with
    | none =>
      cases tro with
      | none => rfl
      | some tr0 =>
        rw [trim_spectrogram_none_some freqs2 times2 spg tr0]
        dsimp only
        rw [trim_spectrogram_none_some, rangeMask_def tr0.1 tr0.2 times2,
          maskSelect_map_self (inRange tr0.1 tr0.2) times2, rangeMask_def,
          maskSelect_filter_mask (inRange tr0.1 tr0.2) times2
            (times2.filter (inRange tr0.1 tr0.2)) (le_refl _),
          map_retrim (inRange tr0.1 tr0.2) times2 spg]
    | some fr0 =>
      cases tro with
      | none =>
        rw [trim_spectrogram_some_none freqs2 times2 spg fr0]
        dsimp only
        rw [trim_spectrogram_some_none, rangeMask_def fr0.1 fr0.2 freqs2,
          maskSelect_map_self (inRange fr0.1 fr0.2) freqs2, rangeMask_def,
          maskSelect_filter_mask (inRange fr0.1 fr0.2) freqs2
            (freqs2.filter (inRange fr0.1 fr0.2)) (le_refl _),
          maskSelect_filter_mask (inRange fr0.1 fr0.2) freqs2
            (maskSelect (freqs2.map (inRange fr0.1 fr0.2)) spg)
            (maskSelect_map_length_le _ _ _)]
      | some tr0 =>
        rw [trim_spectrogram_some_some freqs2 times2 spg fr0 tr0]
        dsimp only
        rw [trim_spectrogram_some_some, rangeMask_def fr0.1 fr0.2 freqs2,
          rangeMask_def tr0.1 tr0.2 times2,
          maskSelect_map_self (inRange fr0.1 fr0.2) freqs2,
          maskSelect_map_self (inRange tr0.1 tr0.2) times2,
          rangeMask_def fr0.1 fr0.2 (freqs2.filter (inRange fr0.1 fr0.2)),
          rangeMask_def tr0.1 tr0.2 (times2.filter (inRange tr0.1 tr0.2)),
          maskSelect_filter_mask (inRange fr0.1 fr0.2) freqs2
            (freqs2.filter (inRange fr0.1 fr0.2)) (le_refl _),
          maskSelect_filter_mask (inRange tr0.1 tr0.2) times2
            (times2.filter (inRange tr0.1 tr0.2)) (le_refl _),
          maskSelect_filter_mask (inRange fr0.1 fr0.2) freqs2
            ((maskSelect (freqs2.map (inRange fr0.1 fr0.2)) spg).map
              (maskSelect (times2.map (inRange tr0.1 tr0.2))))
            (by rw [List.length_map]; exact maskSelect_map_length_le _ _ _),
          map_retrim (inRange tr0.1 tr0.2) times2
            (maskSelect (freqs2.map (inRange fr0.1 fr0.2)) spg)]

/-- Claim C4: `get_positive_fft_outputs` returns the slice
`freqs[start:end]` with `start = 1` when `drop_zero` and `0` otherwise and
`end = ceil(N / 2)`; a supplied `powers` gets the identical slice and is
returned as a pair, otherwise only the sliced frequencies are returned; with
`drop_zero = false` index 0 is included (the head is preserved) and
`ceil(N / 2)` bins are returned — which is `N / 2` for even `N`; with
`drop_zero = true` index 0 is excluded (the output starts from `freqs[1]`). -/
theorem get_positive_fft_outputs_slices (freqs p : List ℚ) (dz : Bool) :
    get_positive_fft_outputs freqs (some p) dz
      = (pySlice freqs (if dz then 1 else 0) ((freqs.length + 1) / 2),
         some (pySlice p (if dz then 1 else 0) ((freqs.length + 1) / 2)))
    ∧ get_positive_fft_outputs freqs none dz
      = (pySlice freqs (if dz then 1 else 0) ((freqs.length + 1) / 2), none)
    ∧ (get_positive_fft_outputs freqs none false).1.length = (freqs.length + 1) / 2
    ∧ (2 ∣ freqs.length →
        (get_positive_fft_outputs freqs none false).1.length = freqs.length / 2)
    ∧ (get_positive_fft_outputs freqs none false).1.head? = freqs.head?
    ∧ (get_positive_fft_outputs freqs none true).1
        = (freqs.drop 1).take ((freqs.length + 1) / 2 - 1) := by
  refine ⟨rfl, rfl, ?_, ?_, ?_, ?_⟩
  · show ((freqs.take ((freqs.length + 1) / 2)).drop 0).length = (freqs.length + 1) / 2
    rw [List.drop_zero, List.length_take]
    omega
  · intro h
    show ((freqs.take ((freqs.length + 1) / 2)).drop 0).length = freqs.length / 2
    rw [List.drop_zero, List.length_take]
    omega
  · show ((freqs.take ((freqs.length + 1) / 2)).drop 0).head? = freqs.head?
    rw [List.drop_zero, List.head?_take]
    cases freqs with
    | nil => simp
    | cons x l => rw [if_neg (by simp only [List.length_cons]; omega)]
  · show (freqs.take ((freqs.length + 1) / 2)).drop 1
        = (freqs.drop 1).take ((freqs.length + 1) / 2 - 1)
    rw [List.drop_take]

/-- Claim C10: `get_positive_fft_outputs` is total on every input length:
with `drop_zero = true` it returns exactly `ceil(N / 2) - 1` elements
(truncated at zero), in particular the empty array for `N = 0` or `N = 1`;
for `N = 0` with `drop_zero = false` it also returns the empty array; and a
supplied `powers` of matching length always yields a slice of the same
length as the frequency slice. -/
theorem get_positive_fft_outputs_total (freqs p : List ℚ) (dz : Bool) :
    (get_positive_fft_outputs freqs none true).1.length = (freqs.length + 1) / 2 - 1
    ∧ (freqs.length = 0 ∨ freqs.length = 1 →
        (get_positive_fft_outputs freqs none true).1 = [])
    ∧ (freqs.length = 0 → (get_positive_fft_outputs freqs none false).1 = [])
    ∧ (p.length = freqs.length →
        ∃ q, (get_positive_fft_outputs freqs (some p) dz).2 = some q
          ∧ q.length = (get_positive_fft_outputs freqs (some p) dz).1.length) := by
  have hlen : ∀ (xs : List ℚ) (s e : Nat),
      (pySlice xs s e).length = min e xs.length - s := by
    intro xs s e
    rw [pySlice, List.length_drop, List.length_take]
  refine ⟨?_, ?_, ?_, ?_⟩
  · show (pySlice freqs 1 ((freqs.length + 1) / 2)).length = (freqs.length + 1) / 2 - 1
    rw [hlen]
    omega
  · intro h
    show pySlice freqs 1 ((freqs.length + 1) / 2) = []
    rw [← List.length_eq_zero, hlen]
    omega
  · intro h
    show pySlice freqs 0 ((freqs.length + 1) / 2) = []
    rw [← List.length_eq_zero, hlen]
    omega
  · intro hp
    refine ⟨pySlice p (if dz then 1 else 0) ((freqs.length + 1) / 2), rfl, ?_⟩
    show (pySlice p (if dz then 1 else 0) ((freqs.length + 1) / 2)).length
      = (pySlice freqs (if dz then 1 else 0) ((freqs.length + 1) / 2)).length
    rw [hlen, hlen, hp]

/-- Taking the middle block of a three-block concatenation, starting at the
left block's length. -/
theorem take_drop_middle (A sig B : List ℚ)
    (hidx : ((A ++ sig ++ B).length - sig.length) / 2 = A.length) :
    ((A ++ sig ++ B).drop (((A ++ sig ++ B).length - sig.length) / 2)).take
      sig.length = sig := by
  rw [hidx, List.append_assoc, List.drop_left, List.take_left]

/-- Unfolding of `pad_signal` in the padding case `len(sig) < length`. -/
theorem pad_signal_pos (nfl : Nat → Nat) (sig : List ℚ) (length : Nat)
    (fl : Bool) (h : sig.length < length) :
    pad_signal nfl sig length fl
      = List.replicate (((if fl then nfl length else length) - sig.length) / 2) 0
          ++ sig
          ++ List.replicate (((if fl then nfl length else length) - sig.length)
              - ((if fl then nfl length else length) - sig.length) / 2) 0 := by
  simp only [pad_signal, if_pos h]

/-- Claim C5: for `length > len(sig)` (with `length` first replaced by
`next_fast_len length` when `fast_len` is set), `pad_signal` returns
`left` zeros, then the original samples in order, then `right` zeros, with
`total_pad = length - len(sig)`, `left = floor(total_pad / 2)` and
`right = ceil(total_pad / 2)`, so an odd `total_pad` puts the extra zero on
the right; the spec's three concrete examples hold. -/
theorem pad_signal_splits (nfl : Nat → Nat) (sig : List ℚ) (length : Nat)
    (h : sig.length < length) (hn : length ≤ nfl length) :
    pad_signal nfl sig length false
      = List.replicate ((length - sig.length) / 2) 0 ++ sig
          ++ List.replicate ((length - sig.length + 1) / 2) 0
    ∧ pad_signal nfl sig length true
      = List.replicate ((nfl length - sig.length) / 2) 0 ++ sig
          ++ List.replicate ((nfl length - sig.length + 1) / 2) 0
    ∧ pad_signal nfl [1, 2, 3] 5 false = [0, 1, 2, 3, 0]
    ∧ pad_signal nfl [1, 2] 5 false = [0, 1, 2, 0, 0]
    ∧ pad_signal nfl [1, 2, 3] 6 false = [0, 1, 2, 3, 0, 0] := by
  refine ⟨?_, ?_, by simp [pad_signal], by simp [pad_signal], by simp [pad_signal]⟩
  · rw [pad_signal_pos nfl sig length false h]
    rw [show (if false then nfl length else length) = length from rfl]
    rw [show length - sig.length - (length - sig.length) / 2
        = (length - sig.length + 1) / 2 from by omega]
  · rw [pad_signal_pos nfl sig length true h]
    rw [show (if true then nfl length else length) = nfl length from rfl]
    rw [show nfl length - sig.length - (nfl length - sig.length) / 2
        = (nfl length - sig.length + 1) / 2 from by omega]

/-- Witness for claim C5: an odd total pad puts the extra zero on the right. -/
theorem pad_signal_splits_witness :
    pad_signal (fun n => n) [1, 2] 5 false = [0, 1, 2, 0, 0] :=
  (pad_signal_splits (fun n => n) [1, 2] 5 (by decide) (by decide)).2.2.2.1

/-- Claim C6: `pad_signal` never truncates: whenever the requested `length`
is at most `len(sig)`, the signal is returned unchanged, for both values of
`fast_len`. -/
theorem pad_signal_no_truncation (nfl : Nat → Nat) (sig : List ℚ)
    (length : Nat) (h : length ≤ sig.length) :
    pad_signal nfl sig length false = sig ∧ pad_signal nfl sig length true = sig := by
  constructor <;> · simp only [pad_signal]; rw [if_neg (Nat.not_lt.mpr h)]

/-- Witness for claim C6: `fast_len = true` with a strictly growing
fast-length function still leaves a long-enough signal unchanged. -/
theorem pad_signal_no_truncation_witness :
    pad_signal (fun n => n + 7) [1, 2, 3] 3 true = [1, 2, 3] :=
  (pad_signal_no_truncation (fun n => n + 7) [1, 2, 3] 3 (by decide)).2

/-- Counterexample to claim C7 as stated: for `sig = [1, 2, 3]` and target
`length = 2 < len(sig)` (with `fast_len = false`, so the identity fast-length
function, which satisfies the contract `nextFastLen n ≥ n`, is never
consulted), the output is `sig` itself, of length 3, not the target length
2: the output length does not always equal the (possibly adjusted) target. -/
theorem pad_signal_fixed_target_counterexample :
    ¬ (pad_signal (fun n => n) [1, 2, 3] 2 false).length = 2 := by decide

/-- Claim C7 amended: when padding occurs (`len(sig) < length`) the output
length equals the fast-length-adjusted target (`nextFastLen length` when
`fast_len`, `length` itself otherwise, for any `nextFastLen` with
`nextFastLen n ≥ n`); when `length ≤ len(sig)` the output is the signal
itself; in every case the original samples appear in order as a contiguous
sub-sequence starting at index `left = floor((outLen - len(sig)) / 2)`. -/
theorem pad_signal_length_amended (nfl : Nat → Nat) (sig : List ℚ)
    (length : Nat) (fl : Bool) (hn : ∀ n, n ≤ nfl n) :
    (sig.length < length →
      (pad_signal nfl sig length fl).length = (if fl then nfl length else length))
    ∧ (length ≤ sig.length → pad_signal nfl sig length fl = sig)
    ∧ ((pad_signal nfl sig length fl).drop
          (((pad_signal nfl sig length fl).length - sig.length) / 2)).take
        sig.length = sig := by
  by_cases h : sig.length < length
  · have hL : sig.length ≤ (if fl then nfl length else length) := by
      cases fl
      · simpa using le_of_lt h
      · simpa using le_trans (le_of_lt h) (hn length)
    have hpad := pad_signal_pos nfl sig length fl h
    obtain ⟨L2, hL2⟩ : ∃ L2, (if fl then nfl length else length) = L2 := ⟨_, rfl⟩
    rw [hL2] at hL hpad
    refine ⟨fun _ => ?_, fun hc => absurd h (Nat.not_lt.mpr hc), ?_⟩
    · rw [hL2, hpad]
      simp only [List.length_append, List.length_replicate]
      omega
    · rw [hpad]
      exact take_drop_middle _ _ _ (by
        simp only [List.length_append, List.length_replicate]
        omega)
  · have hs : pad_signal nfl sig length fl = sig := by
      simp only [pad_signal]
      rw [if_neg h]
    refine ⟨fun hc => absurd hc h, fun _ => hs, ?_⟩
    rw [hs, Nat.sub_self, Nat.zero_div, List.drop_zero,
      List.take_of_length_le (le_refl _)]

/-- Witness for the amended claim C7. -/
theorem pad_signal_length_amended_witness :
    (pad_signal (fun n => n) [1, 2] 5 false).length = 5 :=
  (pad_signal_length_amended (fun n => n) [1, 2] 5 false (fun n => le_refl n)).1
    (by decide)

end NeuroDSP
